import Mathlib

/-!
Verification of the input-file ingestion and symbol-resolution core of a
Mach-O linker (`src/macho/input-files.cc`).  Pure functions below are shallow
embeddings of the corresponding C++ routines; files, subsections and symbols
are identified by natural numbers, byte strings by lists of naturals.
-/

set_option maxHeartbeats 1000000

namespace MachO

/-! ### Definitions: shallow embedding of `input-files.cc` -/

/-- Models `obj->is_alive = archive_name.empty() || ctx.all_load;`
(`ObjectFile::create`, input-files.cc:37). -/
def objIsAliveAtCreate (archive_name : String) (all_load : Bool) : Bool :=
  (archive_name == "") || all_load

/-- Models `dylib->is_alive = (ctx.needed_l || !ctx.arg.dead_strip_dylibs);`
(`DylibFile::create`, input-files.cc:768). -/
def dylibIsAliveAtCreate (needed_l dead_strip_dylibs : Bool) : Bool :=
  needed_l || !dead_strip_dylibs

/-- The fields of a process-wide `Symbol` that `clear_symbols` touches.
`file` and `subsec` are identifiers, `scope` is the numeric scope constant
(`SCOPE_LOCAL = 0`). -/
structure Sym where
  file : Option Nat
  scope : Nat
  is_imported : Bool
  is_weak : Bool
  subsec : Option Nat
  value : Nat
  is_common : Bool
deriving DecidableEq

/-- The reset branch of `clear_symbols`: the unowned state a symbol is put
into when `sym->file == this`. -/
def clearedSym : Sym :=
  { file := none, scope := 0, is_imported := false, is_weak := false,
    subsec := none, value := 0, is_common := false }

/-- One iteration of `InputFile::clear_symbols` (input-files.cc:16-29):
reset the symbol iff it is currently owned by `self`. -/
def clearSym (self : Nat) (s : Sym) : Sym :=
  if s.file = some self then clearedSym else s

/-- Embedding of `InputFile::clear_symbols`, over the file's `syms`
sequence. -/
def clear_symbols (self : Nat) (syms : List Sym) : List Sym :=
  syms.map (clearSym self)

/-- The raw symbol-table facts about one `MachSym` that the duplicate check
reads: `msym.is_undef()`, `msym.is_common()` and `msym.desc & N_WEAK_DEF`. -/
structure DupMSym where
  is_undef : Bool
  is_common : Bool
  weak_def : Bool
deriving DecidableEq

/-- Embedding of `ObjectFile::check_duplicate_symbols`
(input-files.cc:658-668), walking the symbol table from slot `i`.  Each slot
carries the `MachSym` view and the interned symbol's current owner
(`sym->file`).  An emitted diagnostic is the pair (slot index, owning file);
`Error` does not abort, so the walk continues after each report. -/
def check_duplicate_symbols (self : Nat) :
    List (DupMSym × Option Nat) → Nat → List (Nat × Nat)
  | [], _ => []
  | (m, some o) :: rest, i =>
    if !(o == self) && !m.is_undef && !m.is_common && !m.weak_def then
      (i, o) :: check_duplicate_symbols self rest (i + 1)
    else
      check_duplicate_symbols self rest (i + 1)
  | (_, none) :: rest, i => check_duplicate_symbols self rest (i + 1)

/-- The emission condition of `check_duplicate_symbols`, as a
proposition. -/
def isDupAgainst (self : Nat) (m : DupMSym) (owner : Option Nat) (o : Nat) : Prop :=
  owner = some o ∧ o ≠ self ∧ m.is_undef = false ∧ m.is_common = false ∧
    m.weak_def = false

mutual
/-- A dylib as handed to `DylibFile::create`: its own exported and
weak-exported names (from the export trie or the TBD stub) and the dylibs
named by its `LC_REEXPORT_DYLIB` entries, already resolved to files. -/
inductive DylibTree : Type where
  | node (ex wex : List String) (children : DylibForest) : DylibTree
/-- The `reexported_libs` sequence of a dylib. -/
inductive DylibForest : Type where
  | nil : DylibForest
  | cons (t : DylibTree) (f : DylibForest) : DylibForest
end

mutual
/-- The `(exports, weak_exports)` sets of a dylib after `DylibFile::create`
returns (input-files.cc:784-794): the dylib's own sets, merged with the
result of recursively creating every reexported child
(`exports.merge(child->exports)` leaves the destination equal to the union). -/
def createT : DylibTree → Finset String × Finset String
  | .node ex wex children =>
    let a := createF children
    (ex.toFinset ∪ a.1, wex.toFinset ∪ a.2)
/-- Folds `createT` over the reexport list. -/
def createF : DylibForest → Finset String × Finset String
  | .nil => (∅, ∅)
  | .cons t f =>
    let a := createT t
    let b := createF f
    (a.1 ∪ b.1, a.2 ∪ b.2)
end

/-- A dylib's own (non-reexported) plain exports. -/
def ownEx : DylibTree → List String
  | .node ex _ _ => ex

/-- A dylib's own (non-reexported) weak exports. -/
def ownWex : DylibTree → List String
  | .node _ wex _ => wex

mutual
/-- The dylibs reachable from a parent through `reexported_libs` chains, the
parent included. -/
def descT : DylibTree → List DylibTree
  | .node ex wex children => .node ex wex children :: descF children
/-- Reachable dylibs of a reexport list. -/
def descF : DylibForest → List DylibTree
  | .nil => []
  | .cons t f => descT t ++ descF f
end

/-- A name set in the iteration order of the C++ `std::set`: sorted
ascending. -/
def sortedNames (E : Finset String) : List String :=
  E.sort (fun a b => a ≤ b)

/-- The `syms`/`is_weak_symbol` materialization of `DylibFile::create`
(input-files.cc:796-806): one interned symbol per export, then one per weak
export not already in `exports`, flagged weak. -/
def dylibSyms (ex wex : Finset String) : List (String × Bool) :=
  (sortedNames ex).map (fun s => (s, false)) ++
    ((sortedNames wex).filter (fun s => !(decide (s ∈ ex)))).map
      (fun s => (s, true))

/-- The reexport chain of the repository's test `reexport-l.sh`: `libbar`
reexports `libfoo`, which exports `_foo`; `libbar` itself also weak-exports
`_w`. -/
def c2tree : DylibTree :=
  .node [] ["_w"] (.cons (.node ["_foo"] [] .nil) .nil)

/-- The attributes of an `InputFile` that `get_rank` reads. -/
structure FileAttrs where
  is_dylib : Bool
  is_alive : Bool
  priority : Nat
deriving DecidableEq

/-- Embedding of `get_rank(InputFile<E> *file, bool is_common, bool
is_weak)` (input-files.cc:512-530). -/
def get_rank_file (f : FileAttrs) (is_common is_weak : Bool) : Nat :=
  if is_common then
    if !f.is_alive then (6 <<< 24) + f.priority
    else (5 <<< 24) + f.priority
  else if f.is_dylib || !f.is_alive then
    if is_weak then (4 <<< 24) + f.priority
    else (3 <<< 24) + f.priority
  else if is_weak then (2 <<< 24) + f.priority
  else (1 <<< 24) + f.priority

/-- One resolution attempt for a symbol.  `off_common`/`off_weak` are the
flags the caller passes to `get_rank(this, is_common, is_weak)` at the
compare; `rec_common`/`rec_weak` are the `sym.is_common`/`sym.is_weak` it
records on a win.  `ObjectFile::resolve_symbols` records the flags it
offered (input-files.cc:562-591); `DylibFile::resolve_symbols` offers
`(false, false)` but records `is_weak = (this->is_weak ||
is_weak_symbol[i])` (input-files.cc:890-894), so the two pairs can
differ. -/
structure Candidate where
  file : FileAttrs
  off_common : Bool
  off_weak : Bool
  rec_common : Bool
  rec_weak : Bool
deriving DecidableEq

/-- A candidate from an extern non-undef `MachSym` of
`ObjectFile::resolve_symbols`: offered and recorded flags agree. -/
def objCandidate (f : FileAttrs) (is_common is_weak : Bool) : Candidate :=
  ⟨f, is_common, is_weak, is_common, is_weak⟩

/-- A slot of `DylibFile::resolve_symbols`: the compare uses
`get_rank(this, false, false)`, a win records `is_common = false` and
`is_weak = (this->is_weak || is_weak_symbol[i])`. -/
def dylibCandidate (f : FileAttrs) (lib_weak weak_sym : Bool) : Candidate :=
  ⟨f, false, false, false, lib_weak || weak_sym⟩

/-- The rank-relevant part of a resolved `Symbol`: the recorded owner and
its recorded `is_common`/`is_weak` flags. -/
structure SymState where
  file : FileAttrs
  is_common : Bool
  is_weak : Bool
deriving DecidableEq

/-- The symbol state a winning candidate leaves behind. -/
def recordOf (c : Candidate) : SymState :=
  ⟨c.file, c.rec_common, c.rec_weak⟩

/-- The rank a candidate offers at the compare. -/
def candRank (c : Candidate) : Nat :=
  get_rank_file c.file c.off_common c.off_weak

/-- Embedding of `get_rank(Symbol<E> &sym)` (input-files.cc:532-537): the
incumbent's rank is computed from the symbol's recorded `file`,
`is_common` and `is_weak` fields; `7 << 24` when the symbol is unowned. -/
def get_rank_sym (owner : Option SymState) : Nat :=
  match owner with
  | none => 7 <<< 24
  | some st => get_rank_file st.file st.is_common st.is_weak

/-- The guarded overwrite of `resolve_symbols` performed under the symbol's
lock (input-files.cc:566-567 and 890-891): the candidate takes ownership iff
its offered rank is strictly below the incumbent's recorded rank, and on a
win stores its recorded flags. -/
def resolveStep (cur : Option SymState) (c : Candidate) : Option SymState :=
  if candRank c < get_rank_sym cur then some (recordOf c) else cur

/-- The effect of all `resolve_symbols` calls on one interned symbol: the
candidates are applied in some serialization order (the per-symbol lock
serializes them); the list fixes one such order. -/
def resolve_symbols (cs : List Candidate) : Option SymState :=
  cs.foldl resolveStep none

/-- A candidate that records exactly the flags it offers: every object-file
candidate, and a dylib slot whose recorded `is_weak` is false (a plain
export of a non-weak dylib).  A weak dylib export offers `(false, false)`
but records `is_weak = true`, violating this. -/
def recEqOff (c : Candidate) : Prop :=
  c.rec_common = c.off_common ∧ c.rec_weak = c.off_weak

instance (c : Candidate) : Decidable (recEqOff c) := by
  unfold recEqOff
  exact inferInstance

/-- The kind column of the claim's seven-row precedence table (rows 1-6; row
7, "no owner", is `get_rank_sym none`). -/
def specKind (f : FileAttrs) (is_common is_weak : Bool) : Nat :=
  if is_common then
    if f.is_alive then 5 else 6
  else if f.is_dylib || !f.is_alive then
    if is_weak then 4 else 3
  else if is_weak then 2 else 1

/-- The two defining candidates of the claim's weak-override scenario: a
strong definition in a live object with priority 5 and a plain export of a
non-weak dylib with priority 1. -/
def c1cs : List Candidate :=
  [objCandidate ⟨false, true, 5⟩ false false,
   dylibCandidate ⟨true, true, 1⟩ false false]

/-- Dylib D of the order-dependence scenario: priority 1, not a weak
library, the symbol is in its `weak_exports` — it offers `(false, false)`
(kind 3) but records `is_weak = true` (re-ranked at kind 4). -/
def c1dylD : Candidate := dylibCandidate ⟨true, true, 1⟩ false true

/-- Dylib E of the order-dependence scenario: priority 2, plain export. -/
def c1dylE : Candidate := dylibCandidate ⟨true, true, 2⟩ false false

/-- An `UnwindRecord` right after the relocation walk of
`parse_compact_unwind`: the subsection it was attached to by a `code_start`
relocation (`none` when none reached it) and its `offset` within that
subsection. -/
structure URecIn where
  subsec : Option Nat
  offset : Nat
deriving DecidableEq

/-- An unwind record with its attachment resolved: `(subsection id,
offset)`. -/
abbrev URec := Nat × Nat

/-- The comparator of the sort at input-files.cc:482-485, as a non-strict
total order: lexicographic on `(subsec->input_addr, offset)`.  `addr` maps a
subsection id to its `input_addr`. -/
def unwindKeyLe (addr : Nat → Nat) (a b : URec) : Prop :=
  addr a.1 < addr b.1 ∨ (addr a.1 = addr b.1 ∧ a.2 ≤ b.2)

instance (addr : Nat → Nat) : DecidableRel (unwindKeyLe addr) := fun a b => by
  unfold unwindKeyLe
  exact inferInstance

instance (addr : Nat → Nat) : IsTotal URec (unwindKeyLe addr) := by
  refine ⟨fun a b => ?_⟩
  unfold unwindKeyLe
  omega

instance (addr : Nat → Nat) : IsTrans URec (unwindKeyLe addr) := by
  refine ⟨fun a b c => ?_⟩
  unfold unwindKeyLe
  omega

/-- The association loop at input-files.cc:488-497 on the sorted record
list: take each maximal adjacent run of records with one subsection and
install `(subsec, unwind_offset = run start, nunwind = run length)`.  The
recursion budget `fuel` only needs to cover the list length. -/
def groupRunsF : Nat → List URec → Nat → List (Nat × Nat × Nat)
  | 0, _, _ => []
  | _ + 1, [], _ => []
  | fuel + 1, r :: rest, i0 =>
    (r.1, i0, (rest.takeWhile (fun x => x.1 == r.1)).length + 1) ::
      groupRunsF fuel (rest.dropWhile (fun x => x.1 == r.1))
        (i0 + ((rest.takeWhile (fun x => x.1 == r.1)).length + 1))

/-- The association loop, starting at index `i0`. -/
def groupRuns (l : List URec) (i0 : Nat) : List (Nat × Nat × Nat) :=
  groupRunsF l.length l i0

/-- The tail of `parse_compact_unwind` after the relocation walk
(input-files.cc:477-497): fatal (`none`) when any record lacks a subsec;
otherwise sort the records by `(subsec->input_addr, offset)` and install the
`(unwind_offset, nunwind)` runs.  Returns the sorted `unwind_records`
sequence and the installations performed, in order. -/
def parse_compact_unwind (addr : Nat → Nat) (recs : List URecIn) :
    Option (List URec × List (Nat × Nat × Nat)) :=
  if recs.all (fun r => r.subsec.isSome) then
    some (List.insertionSort (unwindKeyLe addr)
            (recs.map (fun r => (r.subsec.getD 0, r.offset))),
          groupRuns (List.insertionSort (unwindKeyLe addr)
            (recs.map (fun r => (r.subsec.getD 0, r.offset)))) 0)
  else none

/-- The final `(unwind_offset, nunwind)` fields per subsection after all
installations, later writes overwriting earlier ones. -/
def installUnwind (asg : List (Nat × Nat × Nat)) : Nat → Option (Nat × Nat) :=
  asg.foldl (fun m e => fun x => if x = e.1 then some (e.2.1, e.2.2) else m x)
    (fun _ => none)

/-- One concrete `__compact_unwind` configuration: subsection 1 at
`input_addr` 16 with two records (offsets 0 and 4) and subsection 2 at
`input_addr` 32 with one record; the relocation walk delivered them out of
order. -/
def c4recs : List URecIn := [⟨some 2, 0⟩, ⟨some 1, 4⟩, ⟨some 1, 0⟩]

/-- The view of one symbol-table slot read by the mark-live sweep: the
`MachSym` flags (`is_ext` models `msym.is_extern`, `is_undef` models
`msym.is_undef()`, `is_common` models `msym.is_common()`) and the interned
symbol's resolved state (`owner` is `sym.file`, `sym_is_common` is
`sym.is_common`). -/
structure MLEntry where
  is_ext : Bool
  is_undef : Bool
  is_common : Bool
  owner : Option Nat
  sym_is_common : Bool
deriving DecidableEq

/-- The keep condition `bool keep = msym.is_undef() || (msym.is_common() &&
!sym.is_common);` (input-files.cc:626). -/
def mlKeep (e : MLEntry) : Bool := e.is_undef || (e.is_common && !e.sym_is_common)

/-- The slots of `entries` that run `sym.file->is_alive.exchange(true)`
against file `f`. -/
def mlActivates (e : MLEntry) (f : Nat) : Bool :=
  e.is_ext && (e.owner == some f) && mlKeep e

/-- Set file `k` alive in a liveness map. -/
def updAlive (g : Nat → Bool) (k : Nat) : Nat → Bool :=
  fun x => if x = k then true else g x

/-- One iteration of the loop of `ObjectFile::mark_live_objects`
(input-files.cc:616-630) on the state (liveness of every file, feeder log).
The `exchange(true)` runs whenever `keep` holds and an owner exists — before
the dylib test — and the feeder fires only when the exchange returned false
and the owner is not a dylib. -/
def mlStep (isDylib : Nat → Bool) (st : (Nat → Bool) × List Nat)
    (e : MLEntry) : (Nat → Bool) × List Nat :=
  if e.is_ext then
    match e.owner with
    | some f =>
      if mlKeep e then
        if !st.1 f && !isDylib f then (updAlive st.1 f, st.2 ++ [f])
        else (updAlive st.1 f, st.2)
      else st
    | none => st
  else st

/-- Embedding of `ObjectFile::mark_live_objects`, returning the final
liveness map and the sequence of files passed to the feeder. -/
def mark_live_objects (isDylib : Nat → Bool) (alive0 : Nat → Bool)
    (entries : List MLEntry) : (Nat → Bool) × List Nat :=
  entries.foldl (mlStep isDylib) (alive0, [])

/-- One region of a section during mode-A (symbol-directed) splitting
(struct `SplitRegion`, input-files.cc:162-167). -/
structure SplitRegion where
  offset : Nat
  size : Nat
  symidx : Nat
  is_alt_entry : Bool
deriving DecidableEq

/-- Sets the region's `is_alt_entry` flag. -/
def markAlt (r : SplitRegion) : SplitRegion := { r with is_alt_entry := true }

/-- The fix-up loop of `split_regular_sections` (input-files.cc:219-221):
`for (i64 i = 1; i < r.size(); i++) if (r[i-1].offset == r[i].offset)
r[i++].is_alt_entry = true;`.  After a promotion the loop variable is
incremented twice, so the comparison of the promoted region with its
successor is skipped: the recursion on `rest` starts the next comparison at
the pair following the promoted region. -/
def fixupAlt : List SplitRegion → List SplitRegion
  | a :: b :: rest =>
    if a.offset == b.offset then a :: markAlt b :: fixupAlt rest
    else a :: fixupAlt (b :: rest)
  | l => l

/-- The newly-promoted flags produced by the fix-up scan, position by
position: a region is promoted iff its offset equals its predecessor's and
the predecessor was not itself just promoted. -/
def promotedAux (prevOff : Nat) (prevP : Bool) : List SplitRegion → List Bool
  | [] => []
  | b :: rest =>
    ((prevOff == b.offset) && !prevP) ::
      promotedAux b.offset ((prevOff == b.offset) && !prevP) rest

/-- Promotion flags for a whole region list; the first region is never
promoted. -/
def promotedFlags : List SplitRegion → List Bool
  | [] => []
  | a :: rest => false :: promotedAux a.offset false rest

/-- Trailing-zero count with explicit recursion depth; `ctzAux 64 n` agrees
with `std::countr_zero` on any nonzero 64-bit value. -/
def ctzAux : Nat → Nat → Nat
  | 0, _ => 0
  | fuel + 1, n => if n % 2 == 1 then 0 else 1 + ctzAux fuel (n / 2)

/-- Embedding of `std::countr_zero` on a 64-bit `size_t`: 64 for input
0. -/
def ctz64 (n : Nat) : Nat := if n == 0 then 64 else ctzAux 64 n

/-- The `__cstring` loop of `split_subsections_via_symbols`
(input-files.cc:272-286).  One step: find the next NUL (`str.find`, fatal if
none — modelled as `none`), then skip the run of NULs following it
(`find_first_not_of`, section end if none); emit `(pos, end - pos,
min(p2align, countr_zero(pos)))` and continue at `end`.  The list `rem` is
the remaining suffix `str[pos:]`; each step consumes at least one byte, so a
recursion budget of `str.length + 1` can never be exhausted. -/
def splitCStrAux (p2a : Nat) : Nat → List Nat → Nat → Option (List (Nat × Nat × Nat))
  | 0, _, _ => none
  | _ + 1, [], _ => some []
  | fuel + 1, c :: cs, pos =>
    match (c :: cs).findIdx? (fun b => b == 0) with
    | none => none
    | some k =>
      let pad := (((c :: cs).drop (k + 1)).takeWhile (fun b => b == 0)).length
      let e := k + 1 + pad
      match splitCStrAux p2a fuel ((c :: cs).drop e) (pos + e) with
      | none => none
      | some tl => some ((pos, e, min p2a (ctz64 pos)) :: tl)

/-- Subsections emitted for a `__TEXT,__cstring` section with the given raw
bytes and header `p2align`, as triples `(input_offset, input_size,
p2align)`. -/
def split_cstring (contents : List Nat) (p2a : Nat) :
    Option (List (Nat × Nat × Nat)) :=
  splitCStrAux p2a (contents.length + 1) contents 0

/-- The seven bytes of the claim's scenario: h, i, NUL, NUL, y, o, NUL. -/
def c6bytes : List Nat := [104, 105, 0, 0, 121, 111, 0]

/-- A file-system path as its character sequence (all paths involved are
ASCII, so C++ byte positions and character positions coincide). -/
abbrev FsPath := List Char

/-- Embedding of `path.starts_with` with the slash character. -/
def pathIsAbs : FsPath → Bool
  | c :: _ => c == '/'
  | [] => false

/-- Embedding of `path.ends_with(suffix)`. -/
def pathEndsWith (suffix path : FsPath) : Bool :=
  List.isSuffixOf suffix path

/-- Embedding of `path.substr(0, path.size() - n)`. -/
def pathDropRight (path : FsPath) (n : Nat) : FsPath :=
  path.take (path.length - n)

/-- First successfully opened path in a candidate list; `MappedFile::open`
is abstracted by the predicate `opens`. -/
def tryList (opens : FsPath → Bool) : List FsPath → Option FsPath
  | [] => none
  | p :: ps => if opens p then some p else tryList opens ps

/-- The body of the sysroot loop of `find_external_lib` for one root
(input-files.cc:742-760).  The `.tbd` branch continues to the next root
after one attempt; the `.dylib` branch tries `root+stem+".tbd"` then
`root+path` and — there being no `continue` — falls through into the
generic loop that appends `".tbd"` then `".dylib"`; any other path only
runs the generic loop. -/
def felRoot (opens : FsPath → Bool) (root path : FsPath) : Option FsPath :=
  if pathEndsWith ".tbd".toList path then
    if opens (root ++ path) then some (root ++ path) else none
  else if pathEndsWith ".dylib".toList path then
    if opens (root ++ pathDropRight path 6 ++ ".tbd".toList) then
      some (root ++ pathDropRight path 6 ++ ".tbd".toList)
    else if opens (root ++ path) then some (root ++ path)
    else if opens (root ++ path ++ ".tbd".toList) then
      some (root ++ path ++ ".tbd".toList)
    else if opens (root ++ path ++ ".dylib".toList) then
      some (root ++ path ++ ".dylib".toList)
    else none
  else
    if opens (root ++ path ++ ".tbd".toList) then
      some (root ++ path ++ ".tbd".toList)
    else if opens (root ++ path ++ ".dylib".toList) then
      some (root ++ path ++ ".dylib".toList)
    else none

/-- The loop over `ctx.arg.syslibroot`. -/
def felLoop (opens : FsPath → Bool) (path : FsPath) :
    List FsPath → Option FsPath
  | [] => none
  | root :: rest =>
    match felRoot opens root path with
    | some f => some f
    | none => felLoop opens path rest

/-- Embedding of `find_external_lib` (input-files.cc:736-763): a
non-absolute path is opened directly; an absolute path is searched under
each sysroot in order. -/
def find_external_lib (opens : FsPath → Bool) (roots : List FsPath)
    (path : FsPath) : Option FsPath :=
  if !pathIsAbs path then (if opens path then some path else none)
  else felLoop opens path roots

/-- The candidate paths actually attempted for one root, in order. -/
def felRootCandidates (root path : FsPath) : List FsPath :=
  if pathEndsWith ".tbd".toList path then [root ++ path]
  else if pathEndsWith ".dylib".toList path then
    [root ++ pathDropRight path 6 ++ ".tbd".toList, root ++ path,
     root ++ path ++ ".tbd".toList, root ++ path ++ ".dylib".toList]
  else [root ++ path ++ ".tbd".toList, root ++ path ++ ".dylib".toList]

/-- All candidate paths attempted by `find_external_lib`, in order. -/
def felCandidates (roots : List FsPath) (path : FsPath) : List FsPath :=
  if !pathIsAbs path then [path]
  else roots.foldr (fun r acc => felRootCandidates r path ++ acc) []

/-- The candidate paths per root as the claim states them: "a path ending in
".dylib" tries exactly root+stem+".tbd" then root+path", with no
fall-through into the generic suffix attempts. -/
def felRootCandidatesClaimed (root path : FsPath) : List FsPath :=
  if pathEndsWith ".tbd".toList path then [root ++ path]
  else if pathEndsWith ".dylib".toList path then
    [root ++ pathDropRight path 6 ++ ".tbd".toList, root ++ path]
  else [root ++ path ++ ".tbd".toList, root ++ path ++ ".dylib".toList]

/-- The search resolver as the claim describes it, for comparison with
`find_external_lib`. -/
def find_external_lib_claimed (opens : FsPath → Bool) (roots : List FsPath)
    (path : FsPath) : Option FsPath :=
  if !pathIsAbs path then (if opens path then some path else none)
  else tryList opens
    (roots.foldr (fun r acc => felRootCandidatesClaimed r path ++ acc) [])

/-! ### Theorems -/

/-- The emission condition as a proposition matches the Boolean guard of the
code. -/
theorem isDupAgainst_iff (self : Nat) (m : DupMSym) (owner : Option Nat) (o : Nat) :
    isDupAgainst self m owner o ↔
      owner = some o ∧
        (!(o == self) && !m.is_undef && !m.is_common && !m.weak_def) = true := by
  unfold isDupAgainst
  constructor
  · rintro ⟨h0, h1, h2, h3, h4⟩
    refine ⟨h0, ?_⟩
    simp [h1, h2, h3, h4]
  · rintro ⟨h0, hb⟩
    simp only [Bool.and_eq_true, Bool.not_eq_true'] at hb
    obtain ⟨⟨⟨h1, h2⟩, h3⟩, h4⟩ := hb
    exact ⟨h0, ne_of_beq_false h1, h2, h3, h4⟩

/-- Membership characterization of the duplicate walk from an arbitrary
start slot. -/
theorem check_duplicate_symbols_mem (self : Nat)
    (entries : List (DupMSym × Option Nat)) (i0 i o : Nat) :
    (i, o) ∈ check_duplicate_symbols self entries i0 ↔
      ∃ m owner, i0 ≤ i ∧ entries.get? (i - i0) = some (m, owner) ∧
        isDupAgainst self m owner o := by
  induction entries generalizing i0 with
  | nil => simp [check_duplicate_symbols]
  | cons e rest ih =>
    obtain ⟨m, owner⟩ := e
    have tailStep : (i, o) ∈ check_duplicate_symbols self rest (i0 + 1) ↔
        ∃ m' owner', i0 + 1 ≤ i ∧ rest.get? (i - (i0 + 1)) = some (m', owner') ∧
          isDupAgainst self m' owner' o := ih (i0 + 1)
    have shift : ∀ P : DupMSym → Option Nat → Prop,
        (∃ m' owner', i0 + 1 ≤ i ∧ rest.get? (i - (i0 + 1)) = some (m', owner') ∧
          P m' owner') ↔
        (∃ m' owner', i0 + 1 ≤ i ∧
          ((m, owner) :: rest).get? (i - i0) = some (m', owner') ∧ P m' owner') := by
      intro P
      constructor
      · rintro ⟨m', o', hle, hget, hp⟩
        refine ⟨m', o', hle, ?_, hp⟩
        have h2 : i - i0 = (i - (i0 + 1)) + 1 := by omega
        rw [h2]; simpa using hget
      · rintro ⟨m', o', hle, hget, hp⟩
        refine ⟨m', o', hle, ?_, hp⟩
        have h2 : i - i0 = (i - (i0 + 1)) + 1 := by omega
        rw [h2] at hget; simpa using hget
    by_cases hdup : ∃ o', isDupAgainst self m owner o'
    · obtain ⟨o', hdup'⟩ := hdup
      have howner : owner = some o' := hdup'.1
      have hcond := (isDupAgainst_iff self m owner o').mp hdup'
      subst howner
      rw [check_duplicate_symbols, if_pos hcond.2]
      simp only [List.mem_cons, Prod.mk.injEq]
      rw [tailStep, shift]
      constructor
      · rintro (⟨hi, ho⟩ | h)
        · subst hi; subst ho
          exact ⟨m, some o, le_refl _, by simp, hdup'⟩
        · obtain ⟨m', ow', hle, hget, hp⟩ := h
          exact ⟨m', ow', by omega, hget, hp⟩
      · rintro ⟨m', ow', hle, hget, hp⟩
        rcases Nat.eq_or_lt_of_le hle with heq | hlt
        · left
          subst heq
          simp only [Nat.sub_self, List.get?_cons_zero, Option.some.injEq,
            Prod.mk.injEq] at hget
          have : ow' = some o := hp.1
          rw [this] at hget
          have := hget.2
          exact ⟨rfl, by simpa using this.symm⟩
        · right
          exact ⟨m', ow', by omega, hget, hp⟩
    · push_neg at hdup
      have hskip : check_duplicate_symbols self ((m, owner) :: rest) i0 =
          check_duplicate_symbols self rest (i0 + 1) := by
        rcases owner with _ | o'
        · rw [check_duplicate_symbols]
        · rw [check_duplicate_symbols, if_neg]
          intro hb
          exact hdup o' ((isDupAgainst_iff self m (some o') o').mpr ⟨rfl, hb⟩)
      rw [hskip, tailStep, shift]
      constructor
      · rintro ⟨m', ow', hle, hget, hp⟩
        exact ⟨m', ow', by omega, hget, hp⟩
      · rintro ⟨m', ow', hle, hget, hp⟩
        rcases Nat.eq_or_lt_of_le hle with heq | hlt
        · exfalso
          subst heq
          simp only [Nat.sub_self, List.get?_cons_zero, Option.some.injEq,
            Prod.mk.injEq] at hget
          obtain ⟨hm, how⟩ := hget
          subst hm; subst how
          exact hdup o hp
        · exact ⟨m', ow', by omega, hget, hp⟩

/-- Iterating a name set visits exactly its members. -/
theorem mem_sortedNames (E : Finset String) (s : String) :
    s ∈ sortedNames E ↔ s ∈ E := by
  simp [sortedNames, Finset.mem_sort]

/-- Iterating a name set visits each member once. -/
theorem nodup_sortedNames (E : Finset String) : (sortedNames E).Nodup :=
  Finset.sort_nodup _ E

mutual
theorem dylibClosT (t : DylibTree) : ∀ d ∈ descT t,
    (∀ s ∈ ownEx d, s ∈ (createT t).1) ∧ (∀ s ∈ ownWex d, s ∈ (createT t).2) := by
  match t with
  | .node ex wex ch =>
    intro d hd
    rw [descT] at hd
    rcases List.mem_cons.mp hd with h | h
    · subst h
      constructor
      · intro s hs
        simp only [ownEx] at hs
        simp [createT, List.mem_toFinset, hs]
      · intro s hs
        simp only [ownWex] at hs
        simp [createT, List.mem_toFinset, hs]
    · obtain ⟨h1, h2⟩ := dylibClosF ch d h
      constructor
      · intro s hs
        simp [createT, h1 s hs]
      · intro s hs
        simp [createT, h2 s hs]
theorem dylibClosF (f : DylibForest) : ∀ d ∈ descF f,
    (∀ s ∈ ownEx d, s ∈ (createF f).1) ∧ (∀ s ∈ ownWex d, s ∈ (createF f).2) := by
  match f with
  | .nil =>
    intro d hd
    cases hd
  | .cons t f2 =>
    intro d hd
    rw [descF] at hd
    rcases List.mem_append.mp hd with h | h
    · obtain ⟨h1, h2⟩ := dylibClosT t d h
      exact ⟨fun s hs => by simp [createF, h1 s hs],
             fun s hs => by simp [createF, h2 s hs]⟩
    · obtain ⟨h1, h2⟩ := dylibClosF f2 d h
      exact ⟨fun s hs => by simp [createF, h1 s hs],
             fun s hs => by simp [createF, h2 s hs]⟩
end

/-- Characterization of the materialized `syms` sequence: flags and
exactly-once counts. -/
theorem dylibSyms_spec (E W : Finset String) (s : String) :
    ((s, false) ∈ dylibSyms E W ↔ s ∈ E) ∧
    ((s, true) ∈ dylibSyms E W ↔ s ∈ W ∧ s ∉ E) ∧
    (List.count s ((dylibSyms E W).map Prod.fst) =
      if s ∈ E ∪ W then 1 else 0) := by
  refine ⟨?_, ?_, ?_⟩
  · simp [dylibSyms, List.mem_append, List.mem_map, mem_sortedNames]
  · simp [dylibSyms, List.mem_append, List.mem_map, List.mem_filter,
      mem_sortedNames]
  · have hmap : (dylibSyms E W).map Prod.fst =
        sortedNames E ++ (sortedNames W).filter (fun x => !(decide (x ∈ E))) := by
      simp only [dylibSyms, List.map_append, List.map_map]
      rw [show (Prod.fst ∘ fun s : String => (s, false)) = id from rfl,
        show (Prod.fst ∘ fun s : String => (s, true)) = id from rfl,
        List.map_id, List.map_id]
    rw [hmap, List.count_append]
    by_cases hE : s ∈ E
    · have h1 : List.count s (sortedNames E) = 1 :=
        List.count_eq_one_of_mem (nodup_sortedNames E)
          ((mem_sortedNames E s).mpr hE)
      have h2 : List.count s ((sortedNames W).filter
          (fun x => !(decide (x ∈ E)))) = 0 := by
        rw [List.count_eq_zero]
        intro hmem
        have := (List.mem_filter.mp hmem).2
        simp [hE] at this
      simp [h1, h2, Finset.mem_union, hE]
    · have h1 : List.count s (sortedNames E) = 0 := by
        rw [List.count_eq_zero]
        simp [mem_sortedNames, hE]
      by_cases hW : s ∈ W
      · have h2 : List.count s ((sortedNames W).filter
            (fun x => !(decide (x ∈ E)))) = 1 := by
          refine List.count_eq_one_of_mem ((nodup_sortedNames W).filter _) ?_
          rw [List.mem_filter]
          simp [mem_sortedNames, hW, hE]
        simp [h1, h2, Finset.mem_union, hE, hW]
      · have h2 : List.count s ((sortedNames W).filter
            (fun x => !(decide (x ∈ E)))) = 0 := by
          rw [List.count_eq_zero]
          intro hmem
          have := (List.mem_filter.mp hmem).1
          simp [mem_sortedNames, hW] at this
        simp [h1, h2, Finset.mem_union, hE, hW]

/-- C2: after `DylibFile::create` returns for a parent, every name exported
by any dylib reachable through the reexport chains is in the parent's
`exports` (weak exports land in `weak_exports`, so a name appearing only as
a weak export is in `weak_exports`); `syms` holds exactly one interned
symbol per name in `exports` plus one per name of `weak_exports` not in
`exports`, the latter flagged weak in `is_weak_symbol`. -/
theorem c2_dylib_reexport_closure (t : DylibTree) :
    (∀ s, (∃ d ∈ descT t, s ∈ ownEx d) → s ∈ (createT t).1) ∧
    (∀ s, (∃ d ∈ descT t, s ∈ ownWex d) → s ∈ (createT t).2) ∧
    (∀ s : String,
      ((s, false) ∈ dylibSyms (createT t).1 (createT t).2 ↔ s ∈ (createT t).1) ∧
      ((s, true) ∈ dylibSyms (createT t).1 (createT t).2 ↔
        s ∈ (createT t).2 ∧ s ∉ (createT t).1) ∧
      (List.count s ((dylibSyms (createT t).1 (createT t).2).map Prod.fst) =
        if s ∈ (createT t).1 ∪ (createT t).2 then 1 else 0)) := by
  refine ⟨?_, ?_, fun s => dylibSyms_spec (createT t).1 (createT t).2 s⟩
  · rintro s ⟨d, hd, hs⟩
    exact (dylibClosT t d hd).1 s hs
  · rintro s ⟨d, hd, hs⟩
    exact (dylibClosT t d hd).2 s hs

/-- C2 witness: `_foo`, exported by the reexported child, is in the parent's
`exports` and appears in `syms` flagged non-weak; `_w` appears flagged
weak. -/
theorem c2_witness :
    (∃ d ∈ descT c2tree, "_foo" ∈ ownEx d) ∧
    "_foo" ∈ (createT c2tree).1 ∧
    ("_foo", false) ∈ dylibSyms (createT c2tree).1 (createT c2tree).2 ∧
    ("_w", true) ∈ dylibSyms (createT c2tree).1 (createT c2tree).2 := by
  have h := c2_dylib_reexport_closure c2tree
  have hd : ∃ d ∈ descT c2tree, "_foo" ∈ ownEx d := by
    refine ⟨.node ["_foo"] [] .nil, ?_, by simp [ownEx]⟩
    simp [c2tree, descT, descF]
  have hfoo : "_foo" ∈ (createT c2tree).1 := h.1 "_foo" hd
  refine ⟨hd, hfoo, ?_, ?_⟩
  · exact ((h.2.2 "_foo").1).mpr hfoo
  · refine ((h.2.2 "_w").2.1).mpr ⟨by decide, by decide⟩

/-- The computed rank is kind shifted left 24 bits plus the file
priority. -/
theorem get_rank_file_eq_kind (f : FileAttrs) (c w : Bool) :
    get_rank_file f c w = (specKind f c w) <<< 24 + f.priority := by
  unfold get_rank_file specKind
  split_ifs <;> simp_all

/-- Kinds of defined candidates lie in rows 1-6 of the table. -/
theorem specKind_bounds (f : FileAttrs) (c w : Bool) :
    1 ≤ specKind f c w ∧ specKind f c w ≤ 6 := by
  unfold specKind
  split_ifs <;> omega

/-- Arithmetic form of the 24-bit shift. -/
theorem shiftLeft24 (k : Nat) : k <<< 24 = k * 16777216 := by
  rw [Nat.shiftLeft_eq]

/-- With priorities below `2^24`, rank comparison is lexicographic
comparison of `(kind, priority)`. -/
theorem rank_lt_iff_kind (k1 p1 k2 p2 : Nat) (h1 : p1 < 16777216)
    (h2 : p2 < 16777216) :
    (k1 <<< 24 + p1 < k2 <<< 24 + p2) ↔
      (k1 < k2 ∨ (k1 = k2 ∧ p1 < p2)) := by
  rw [shiftLeft24, shiftLeft24]
  omega

/-- Equal ranks force equal priorities. -/
theorem rank_eq_imp_priority (k1 p1 k2 p2 : Nat) (h1 : p1 < 16777216)
    (h2 : p2 < 16777216) (h : k1 <<< 24 + p1 = k2 <<< 24 + p2) : p1 = p2 := by
  rw [shiftLeft24, shiftLeft24] at h
  omega

/-- Every defined candidate beats the no-owner rank `7 << 24`. -/
theorem candRank_lt_none (c : Candidate) (hp : c.file.priority < 16777216) :
    candRank c < get_rank_sym none := by
  show candRank c < 7 <<< 24
  rw [candRank, get_rank_file_eq_kind, shiftLeft24, shiftLeft24]
  have := specKind_bounds c.file c.off_common c.off_weak
  omega

/-- When a candidate records the flags it offered, the state it leaves
behind is ranked exactly at its offered rank. -/
theorem rank_recordOf (c : Candidate) (h : recEqOff c) :
    get_rank_sym (some (recordOf c)) = candRank c := by
  obtain ⟨h1, h2⟩ := h
  rw [get_rank_sym, recordOf, candRank]
  rw [h1, h2]

/-- Over candidates that record what they offer, the resolution fold never
increases the owner's rank and ends at or below every candidate's offered
rank. -/
theorem resolve_foldl_le (cs : List Candidate) :
    ∀ cur : Option SymState, (∀ c ∈ cs, recEqOff c) →
      get_rank_sym (cs.foldl resolveStep cur) ≤ get_rank_sym cur ∧
      ∀ c ∈ cs, get_rank_sym (cs.foldl resolveStep cur) ≤ candRank c := by
  induction cs with
  | nil =>
    intro cur _
    exact ⟨le_refl _, by intro c hc; cases hc⟩
  | cons a tl ih =>
    intro cur hro
    rw [List.foldl_cons]
    have hroa : recEqOff a := hro a (List.mem_cons_self a tl)
    have hrotl : ∀ c ∈ tl, recEqOff c := fun c hc =>
      hro c (List.mem_cons_of_mem a hc)
    obtain ⟨ih1, ih2⟩ := ih (resolveStep cur a) hrotl
    have h1 : get_rank_sym (resolveStep cur a) ≤ get_rank_sym cur := by
      rw [resolveStep]
      by_cases h : candRank a < get_rank_sym cur
      · rw [if_pos h, rank_recordOf a hroa]
        exact le_of_lt h
      · rw [if_neg h]
    have h2 : get_rank_sym (resolveStep cur a) ≤ candRank a := by
      rw [resolveStep]
      by_cases h : candRank a < get_rank_sym cur
      · rw [if_pos h, rank_recordOf a hroa]
      · rw [if_neg h]
        exact Nat.le_of_not_lt h
    refine ⟨le_trans ih1 h1, ?_⟩
    intro c hc
    rcases List.mem_cons.mp hc with h | h
    · subst h
      exact le_trans ih1 h2
    · exact ih2 c h

/-- The resolution fold ends at the initial owner or at the recorded state
of one of the candidates. -/
theorem resolve_foldl_mem (cs : List Candidate) :
    ∀ cur : Option SymState,
      cs.foldl resolveStep cur = cur ∨
        ∃ c ∈ cs, cs.foldl resolveStep cur = some (recordOf c) := by
  induction cs with
  | nil =>
    intro cur
    exact Or.inl rfl
  | cons a tl ih =>
    intro cur
    rw [List.foldl_cons]
    rcases ih (resolveStep cur a) with h | ⟨c, hc, h⟩
    · rw [h, resolveStep]
      by_cases hlt : candRank a < get_rank_sym cur
      · right
        exact ⟨a, List.mem_cons_self a tl, by rw [if_pos hlt]⟩
      · left
        rw [if_neg hlt]
    · right
      exact ⟨c, List.mem_cons_of_mem a hc, h⟩

/-- C1 counterexample: dylib D (priority 1) whose symbol sits in
`weak_exports` and dylib E (priority 2) with a plain export.  D offers the
strictly smallest rank `(3 <<< 24) + 1`, yet the serialization D-then-E
ends with E as owner — D's incumbency is re-ranked by its recorded
`is_weak = true` at `(4 <<< 24) + 1`, which E's offer `(3 <<< 24) + 2`
beats — while the serialization E-then-D ends with D.  The final owner
depends on the order, so it is not "the candidate whose 64-bit rank is
numerically smallest". -/
theorem c1_counterexample :
    candRank c1dylD < candRank c1dylE ∧
    resolve_symbols [c1dylD, c1dylE] = some (recordOf c1dylE) ∧
    resolve_symbols [c1dylE, c1dylD] = some (recordOf c1dylD) ∧
    recordOf c1dylE ≠ recordOf c1dylD := by
  decide

/-- C1 amended: over candidates that record the `(is_common, is_weak)`
flags they offer — all object-file definitions, and dylib exports whose
recorded `is_weak` is false — the owner after all `resolve_symbols` calls,
in any serialization order, is the recorded state of the unique candidate
of numerically smallest 64-bit rank; ranks are
`kind <<< 24 + file.priority` with `kind` given by the seven-row precedence
table, and rank comparison coincides with lexicographic comparison of
`(kind, priority)`, smaller file priority breaking ties within a kind.
File priorities are pairwise distinct and below `2^24`, as the driver
assigns them.  (A weak dylib export offers `(false, false)` but records
`is_weak = true`, is re-ranked at kind 4 while incumbent, and makes the
outcome serialization-dependent — see the counterexample.) -/
theorem c1_resolver_rank (cs : List Candidate) (hne : cs ≠ [])
    (hp : ∀ c ∈ cs, c.file.priority < 16777216)
    (hd : cs.Pairwise (fun a b => a.file.priority ≠ b.file.priority))
    (hro : ∀ c ∈ cs, recEqOff c) :
    ∃ w, resolve_symbols cs = some (recordOf w) ∧ w ∈ cs ∧
      (∀ c ∈ cs, c ≠ w → candRank w < candRank c) ∧
      (∀ c ∈ cs, candRank c =
        specKind c.file c.off_common c.off_weak <<< 24 + c.file.priority) ∧
      (∀ c1 ∈ cs, ∀ c2 ∈ cs,
        (candRank c1 < candRank c2 ↔
          (specKind c1.file c1.off_common c1.off_weak <
             specKind c2.file c2.off_common c2.off_weak ∨
           (specKind c1.file c1.off_common c1.off_weak =
              specKind c2.file c2.off_common c2.off_weak ∧
            c1.file.priority < c2.file.priority)))) := by
  obtain ⟨c0, hc0⟩ : ∃ c, c ∈ cs := by
    cases cs with
    | nil => exact absurd rfl hne
    | cons a tl => exact ⟨a, List.mem_cons_self a tl⟩
  obtain ⟨hle, hmin⟩ := resolve_foldl_le cs none hro
  obtain ⟨w, hwmem, hw⟩ : ∃ w, w ∈ cs ∧
      cs.foldl resolveStep none = some (recordOf w) := by
    rcases resolve_foldl_mem cs none with h | ⟨c, hc, h⟩
    · exfalso
      have h7 : get_rank_sym (cs.foldl resolveStep none) = 7 <<< 24 := by
        rw [h]
        rfl
      have hm := hmin c0 hc0
      have hlt := candRank_lt_none c0 (hp c0 hc0)
      have : get_rank_sym none = 7 <<< 24 := rfl
      omega
    · exact ⟨c, hc, h⟩
  have hwrank : ∀ c ∈ cs, candRank w ≤ candRank c := by
    intro c hc
    have h := hmin c hc
    rw [hw, rank_recordOf w (hro w hwmem)] at h
    exact h
  refine ⟨w, hw, hwmem, ?_, ?_, ?_⟩
  · intro c hc hcw
    rcases lt_or_eq_of_le (hwrank c hc) with h | h
    · exact h
    · exfalso
      have hpw := hp w hwmem
      have hpc := hp c hc
      have h1 := get_rank_file_eq_kind w.file w.off_common w.off_weak
      have h2 := get_rank_file_eq_kind c.file c.off_common c.off_weak
      have heq : specKind w.file w.off_common w.off_weak <<< 24 +
            w.file.priority =
          specKind c.file c.off_common c.off_weak <<< 24 +
            c.file.priority := by
        rw [← h1, ← h2]
        exact h
      have hpp : w.file.priority = c.file.priority :=
        rank_eq_imp_priority _ _ _ _ hpw hpc heq
      have hsym : Symmetric fun a b : Candidate =>
          a.file.priority ≠ b.file.priority := fun _ _ hab => Ne.symm hab
      exact (hd.forall hsym hwmem hc (fun heq2 => hcw (heq2.symm))) hpp
  · intro c _
    exact get_rank_file_eq_kind c.file c.off_common c.off_weak
  · intro c1 h1 c2 h2
    rw [candRank, candRank, get_rank_file_eq_kind, get_rank_file_eq_kind]
    exact rank_lt_iff_kind _ _ _ _ (hp c1 h1) (hp c2 h2)

/-- C1 witness: on `c1cs` the hypotheses hold — both candidates record what
they offer — and the live object wins with rank `(1 <<< 24) + 5` against
the dylib's `(3 <<< 24) + 1`. -/
theorem c1_witness :
    c1cs ≠ [] ∧ (∀ c ∈ c1cs, c.file.priority < 16777216) ∧
    c1cs.Pairwise (fun a b => a.file.priority ≠ b.file.priority) ∧
    (∀ c ∈ c1cs, recEqOff c) ∧
    (∃ w, resolve_symbols c1cs = some (recordOf w) ∧ w ∈ c1cs ∧
      (∀ c ∈ c1cs, c ≠ w → candRank w < candRank c) ∧
      (∀ c ∈ c1cs, candRank c =
        specKind c.file c.off_common c.off_weak <<< 24 + c.file.priority) ∧
      (∀ c1 ∈ c1cs, ∀ c2 ∈ c1cs,
        (candRank c1 < candRank c2 ↔
          (specKind c1.file c1.off_common c1.off_weak <
             specKind c2.file c2.off_common c2.off_weak ∨
           (specKind c1.file c1.off_common c1.off_weak =
              specKind c2.file c2.off_common c2.off_weak ∧
            c1.file.priority < c2.file.priority))))) := by
  refine ⟨by decide, by decide, by decide, by decide,
    c1_resolver_rank c1cs (by decide) (by decide) (by decide) (by decide)⟩

/-- A value surviving the install fold was one of the installations. -/
theorem installUnwind_foldl_mem (asg : List (Nat × Nat × Nat)) :
    ∀ (init : Nat → Option (Nat × Nat)) (s : Nat) (v : Nat × Nat),
      (asg.foldl (fun m e => fun x => if x = e.1 then some (e.2.1, e.2.2) else m x)
        init) s = some v → (s, v.1, v.2) ∈ asg ∨ init s = some v := by
  induction asg with
  | nil =>
    intro init s v h'
    exact Or.inr h'
  | cons e rest ih =>
    intro init s v h'
    rw [List.foldl_cons] at h'
    rcases ih _ s v h' with hmem | hinit
    · exact Or.inl (List.mem_cons_of_mem e hmem)
    · by_cases hx : s = e.1
      · rw [if_pos hx] at hinit
        left
        injection hinit with hv
        subst hx
        rw [← hv]
        exact List.mem_cons_self _ _
      · rw [if_neg hx] at hinit
        exact Or.inr hinit

/-- A finally-installed `(unwind_offset, nunwind)` pair is one of the
performed installations. -/
theorem installUnwind_mem (asg : List (Nat × Nat × Nat)) (s : Nat)
    (v : Nat × Nat) (h : installUnwind asg s = some v) : (s, v.1, v.2) ∈ asg := by
  rcases installUnwind_foldl_mem asg (fun _ => none) s v h with h' | h'
  · exact h'
  · cases h'

/-- Taking the length of the left part of an append returns it. -/
theorem take_append_len {α : Type} (xs ys : List α) :
    (xs ++ ys).take xs.length = xs := by
  induction xs with
  | nil => simp
  | cons x xs ih => simp [ih]

/-- Dropping the left part of an append and more drops into the right
part. -/
theorem drop_append_len {α : Type} (xs ys : List α) (k : Nat) :
    (xs ++ ys).drop (xs.length + k) = ys.drop k := by
  induction xs with
  | nil => simp
  | cons x xs ih => simpa [Nat.succ_add] using ih

/-- Every element of a `takeWhile` satisfies the predicate. -/
theorem mem_takeWhile_key {α : Type} (p : α → Bool) :
    ∀ l : List α, ∀ x ∈ l.takeWhile p, p x = true := by
  intro l
  induction l with
  | nil => simp
  | cons a tl ih =>
    intro x hx
    by_cases h : p a
    · rw [List.takeWhile_cons, if_pos h] at hx
      rcases List.mem_cons.mp hx with h' | h'
      · subst h'
        exact h
      · exact ih x h'
    · rw [List.takeWhile_cons, if_neg h] at hx
      cases hx

/-- Every installation produced by the association loop covers a nonempty
in-bounds index range whose records all carry the installed subsection. -/
theorem groupRunsF_spec : ∀ (fuel : Nat) (l : List URec) (i0 : Nat),
    l.length ≤ fuel →
    ∀ s i n, (s, i, n) ∈ groupRunsF fuel l i0 →
      i0 ≤ i ∧ i + n ≤ i0 + l.length ∧ 0 < n ∧
      ∀ r ∈ (l.drop (i - i0)).take n, r.1 = s := by
  intro fuel
  induction fuel with
  | zero =>
    intro l i0 hl s i n hmem
    simp [groupRunsF] at hmem
  | succ fuel ih =>
    intro l i0 hl s i n hmem
    cases l with
    | nil => simp [groupRunsF] at hmem
    | cons r rest =>
      rw [groupRunsF] at hmem
      set run := rest.takeWhile (fun x => x.1 == r.1) with hrun
      set rest2 := rest.dropWhile (fun x => x.1 == r.1) with hrest2
      have hsplit : run ++ rest2 = rest :=
        List.takeWhile_append_dropWhile (p := fun x : URec => x.1 == r.1)
          (l := rest)
      have hlensplit : run.length + rest2.length = rest.length := by
        have := congrArg List.length hsplit
        simpa [List.length_append] using this
      rcases List.mem_cons.mp hmem with heq | hmem2
      · rw [Prod.mk.injEq, Prod.mk.injEq] at heq
        obtain ⟨hs, hi, hn⟩ := heq
        subst hs
        subst hi
        subst hn
        refine ⟨le_refl _, ?_, Nat.succ_pos _, ?_⟩
        · simp only [List.length_cons]
          omega
        · rw [Nat.sub_self, List.drop_zero, List.take_succ_cons]
          have htake : rest.take run.length = run :=
            (List.prefix_iff_eq_take.mp (hrun ▸ List.takeWhile_prefix _)).symm
          rw [htake]
          intro x hx
          rcases List.mem_cons.mp hx with h' | h'
          · subst h'
            rfl
          · have := mem_takeWhile_key (fun x : URec => x.1 == r.1) rest x
              (hrun ▸ h')
            exact beq_iff_eq.mp this
      · have hlen2 : rest2.length ≤ fuel := by
          simp only [List.length_cons] at hl
          omega
        obtain ⟨h1, h2, h3, h4⟩ :=
          ih rest2 (i0 + (run.length + 1)) hlen2 s i n hmem2
        refine ⟨by omega, ?_, h3, ?_⟩
        · simp only [List.length_cons]
          omega
        · have hdrop : (r :: rest).drop (i - i0) =
              rest2.drop (i - (i0 + (run.length + 1))) := by
            have h5 : i - i0 =
                (run.length + (i - (i0 + (run.length + 1)))) + 1 := by
              omega
            rw [h5, List.drop_succ_cons, ← hsplit, drop_append_len]
          rw [hdrop]
          exact h4

/-- C4: whenever `parse_compact_unwind` returns without a fatal error, every
unwind record has a non-null subsec, the record sequence is sorted by
`(subsec->input_addr, offset)`, and for every subsection whose
`(unwind_offset, nunwind)` fields were installed, the records at indices
`[unwind_offset, unwind_offset + nunwind)` all have that subsection. -/
theorem c4_unwind_attach (addr : Nat → Nat) (recs : List URecIn)
    (sorted : List URec) (asg : List (Nat × Nat × Nat))
    (h : parse_compact_unwind addr recs = some (sorted, asg)) :
    (∀ r ∈ recs, r.subsec.isSome = true) ∧
    sorted.Sorted (unwindKeyLe addr) ∧
    (∀ s i n, installUnwind asg s = some (i, n) →
      0 < n ∧ i + n ≤ sorted.length ∧
      ∀ r ∈ (sorted.drop i).take n, r.1 = s) := by
  unfold parse_compact_unwind at h
  by_cases hall : recs.all (fun r => r.subsec.isSome)
  · rw [if_pos hall] at h
    injection h with hpair
    rw [Prod.mk.injEq] at hpair
    obtain ⟨hsorted, hasg⟩ := hpair
    subst hsorted
    subst hasg
    refine ⟨?_, List.sorted_insertionSort _ _, ?_⟩
    · intro r hr
      exact List.all_eq_true.mp hall r hr
    · intro s i n hin
      have hmem := installUnwind_mem _ s (i, n) hin
      rw [groupRuns] at hmem
      obtain ⟨h1, h2, h3, h4⟩ :=
        groupRunsF_spec _ _ 0 (le_refl _) s i n hmem
      rw [Nat.sub_zero] at h4
      exact ⟨h3, by omega, h4⟩
  · rw [if_neg hall] at h
    cases h

/-- C4 witness: on `c4recs` the parse succeeds and all three postconditions
hold of the computed sorted records and installations. -/
theorem c4_witness :
    parse_compact_unwind (fun s => s * 16) c4recs =
      some ([(1, 0), (1, 4), (2, 0)], [(1, 0, 2), (2, 2, 1)]) ∧
    ((∀ r ∈ c4recs, r.subsec.isSome = true) ∧
     List.Sorted (unwindKeyLe (fun s => s * 16))
       ([(1, 0), (1, 4), (2, 0)] : List URec) ∧
     (∀ s i n, installUnwind [(1, 0, 2), (2, 2, 1)] s = some (i, n) →
       0 < n ∧ i + n ≤ ([(1, 0), (1, 4), (2, 0)] : List URec).length ∧
       ∀ r ∈ (([(1, 0), (1, 4), (2, 0)] : List URec).drop i).take n,
         r.1 = s)) := by
  refine ⟨by decide, c4_unwind_attach (fun s => s * 16) c4recs
    [(1, 0), (1, 4), (2, 0)] [(1, 0, 2), (2, 2, 1)] (by decide)⟩

/-- Invariant of the mark-live fold from an arbitrary liveness map and
feeder log. -/
theorem mark_live_fold (isDylib : Nat → Bool) (entries : List MLEntry) :
    ∀ (alive0 : Nat → Bool) (log : List Nat) (f : Nat),
    (entries.foldl (mlStep isDylib) (alive0, log)).1 f =
        (alive0 f || entries.any (fun e => mlActivates e f)) ∧
    (entries.foldl (mlStep isDylib) (alive0, log)).2.count f =
        log.count f +
          (if !isDylib f && !alive0 f && entries.any (fun e => mlActivates e f)
           then 1 else 0) := by
  induction entries with
  | nil => intro alive0 log f; simp
  | cons e rest ih =>
    intro alive0 log f
    rw [List.foldl_cons]
    by_cases hact : mlActivates e f
    · -- this slot exchanges on `f` itself
      have hext : e.is_ext = true := by
        simp only [mlActivates, Bool.and_eq_true] at hact
        exact hact.1.1
      have hown : e.owner = some f := by
        simp only [mlActivates, Bool.and_eq_true, beq_iff_eq] at hact
        exact hact.1.2
      have hkeep : mlKeep e = true := by
        simp only [mlActivates, Bool.and_eq_true] at hact
        exact hact.2
      have hstep : mlStep isDylib (alive0, log) e =
          (if !alive0 f && !isDylib f then (updAlive alive0 f, log ++ [f])
           else (updAlive alive0 f, log)) := by
        rw [mlStep]
        simp only [hext, if_true, hown, hkeep]
      have hAf : updAlive alive0 f f = true := by simp [updAlive]
      by_cases hfed : !alive0 f && !isDylib f
      · rw [hstep, if_pos hfed]
        obtain ⟨ih1, ih2⟩ := ih (updAlive alive0 f) (log ++ [f]) f
        constructor
        · rw [ih1, hAf]
          simp [hact]
        · rw [ih2, hAf]
          simp only [Bool.not_true, Bool.and_false, Bool.false_and,
            if_false, Nat.add_zero, List.count_append]
          simp only [Bool.and_eq_true, Bool.not_eq_true'] at hfed
          simp [hact, hfed.1, hfed.2, List.count_singleton]
      · rw [hstep, if_neg hfed]
        obtain ⟨ih1, ih2⟩ := ih (updAlive alive0 f) log f
        constructor
        · rw [ih1, hAf]
          simp [hact]
        · rw [ih2, hAf]
          simp only [Bool.not_true, Bool.and_false, Bool.false_and,
            if_false, Nat.add_zero]
          have : (!isDylib f && !alive0 f) = false := by
            cases hd : isDylib f <;> cases ha : alive0 f <;>
              simp_all
          simp [this]
    · -- this slot does not exchange on `f`
      have hkey : ∀ g, e.owner = some g → e.is_ext = true → mlKeep e = true →
          g ≠ f := by
        intro g hg hx hk hgf
        subst hgf
        simp [mlActivates, hg, hx, hk] at hact
      have hstate : ∃ alive1 log1,
          mlStep isDylib (alive0, log) e = (alive1, log1) ∧
          alive1 f = alive0 f ∧ log1.count f = log.count f := by
        rw [mlStep]
        cases hx : e.is_ext with
        | false => exact ⟨alive0, log, by simp, rfl, rfl⟩
        | true =>
          simp only [if_true]
          cases hg : e.owner with
          | none => exact ⟨alive0, log, by simp, rfl, rfl⟩
          | some g =>
            cases hk : mlKeep e with
            | false => exact ⟨alive0, log, by simp, rfl, rfl⟩
            | true =>
              have hgf : g ≠ f := hkey g hg hx hk
              by_cases hfed : !alive0 g && !isDylib g
              · refine ⟨updAlive alive0 g, log ++ [g], by simp [hfed], ?_, ?_⟩
                · have hfg : ¬ f = g := fun h => hgf h.symm
                  simp [updAlive, hfg]
                · simp [List.count_append, List.count_singleton', hgf]
              · refine ⟨updAlive alive0 g, log, by simp [hfed], ?_, rfl⟩
                have hfg : ¬ f = g := fun h => hgf h.symm
                simp [updAlive, hfg]
      obtain ⟨alive1, log1, hstep, hAf, hLf⟩ := hstate
      rw [hstep]
      obtain ⟨ih1, ih2⟩ := ih alive1 log1 f
      constructor
      · rw [ih1, hAf]
        simp [hact]
      · rw [ih2, hAf, hLf]
        simp [hact]

/-- C3 counterexample: one extern undefined slot whose resolved owner is a
dylib (file 0) that is dead at the start of the sweep.  The sweep sets the
dylib's `is_alive` to true — `exchange(true)` runs before the dylib test —
refuting the claim that dylib owners do not have `is_alive` set; only the
feeder skips dylibs (the log stays empty). -/
theorem c3_counterexample :
    (fun f => f == 0) 0 = true ∧
    (fun _ : Nat => false) 0 = false ∧
    (mark_live_objects (fun f => f == 0) (fun _ => false)
        [⟨true, true, false, some 0, false⟩]).1 0 = true ∧
    (mark_live_objects (fun f => f == 0) (fun _ => false)
        [⟨true, true, false, some 0, false⟩]).2 = [] := by
  decide

/-- C3 amended: for each extern slot whose entry is undefined in this file,
or common here while the owner's definition is not common, an existing owner
— dylib or not — has `is_alive` set to true by the atomic exchange; the
feeder receives exactly the non-dylib owners whose `is_alive` transitioned
false to true, each exactly once, and never a dylib. -/
theorem c3_mark_live_amended (isDylib alive0 : Nat → Bool)
    (entries : List MLEntry) (f : Nat) :
    (mark_live_objects isDylib alive0 entries).1 f =
        (alive0 f || entries.any (fun e => mlActivates e f)) ∧
    (mark_live_objects isDylib alive0 entries).2.count f =
        (if !isDylib f && !alive0 f && entries.any (fun e => mlActivates e f)
         then 1 else 0) := by
  have h := mark_live_fold isDylib entries alive0 [] f
  simpa [mark_live_objects] using h

/-- C9: `check_duplicate_symbols` emits a diagnostic naming this file and
the owner for exactly those symbol-table slots whose interned symbol is
owned by a different file while this file's entry is not undefined, not
common, and lacks the `N_WEAK_DEF` descriptor bit; emission does not abort
the walk, so every such duplicate is reported (the iff holds for every slot
of the table). -/
theorem c9_duplicate_check (self : Nat) (entries : List (DupMSym × Option Nat))
    (i o : Nat) :
    (i, o) ∈ check_duplicate_symbols self entries 0 ↔
      ∃ m owner, entries.get? i = some (m, owner) ∧ owner = some o ∧ o ≠ self ∧
        m.is_undef = false ∧ m.is_common = false ∧ m.weak_def = false := by
  rw [check_duplicate_symbols_mem]
  unfold isDupAgainst
  constructor
  · rintro ⟨m, owner, -, hget, h⟩
    exact ⟨m, owner, by simpa using hget, h⟩
  · rintro ⟨m, owner, hget, h⟩
    exact ⟨m, owner, Nat.zero_le _, by simpa using hget, h⟩

/-- C9 witness: a concrete table with one genuine duplicate slot. -/
theorem c9_witness :
    (1, 7) ∈ check_duplicate_symbols 3
      [(⟨true, false, false⟩, some 7), (⟨false, false, false⟩, some 7),
       (⟨false, false, true⟩, some 7)] 0 ∧
    ¬ (0, 7) ∈ check_duplicate_symbols 3
      [(⟨true, false, false⟩, some 7), (⟨false, false, false⟩, some 7),
       (⟨false, false, true⟩, some 7)] 0 := by
  have h1 := (c9_duplicate_check 3
    [(⟨true, false, false⟩, some 7), (⟨false, false, false⟩, some 7),
     (⟨false, false, true⟩, some 7)] 1 7).mpr
    ⟨⟨false, false, false⟩, some 7, by decide, rfl, by decide, rfl, rfl, rfl⟩
  have h2 := (c9_duplicate_check 3
    [(⟨true, false, false⟩, some 7), (⟨false, false, false⟩, some 7),
     (⟨false, false, true⟩, some 7)] 0 7)
  refine ⟨h1, fun hmem => ?_⟩
  obtain ⟨m, owner, hget, how, -, hundef, -, -⟩ := h2.mp hmem
  simp only [List.get?_cons_zero, Option.some.injEq, Prod.mk.injEq] at hget
  obtain ⟨hm, -⟩ := hget
  rw [← hm] at hundef
  simp at hundef

/-- C10: `InputFile::clear_symbols` resets to the unowned state exactly the
symbols currently owned by this file and leaves every other symbol's fields
untouched. -/
theorem c10_clear_symbols (self : Nat) (syms : List Sym) (i : Nat) (s : Sym)
    (hs : syms.get? i = some s) :
    (s.file = some self → (clear_symbols self syms).get? i = some clearedSym) ∧
    (s.file ≠ some self → (clear_symbols self syms).get? i = some s) := by
  constructor
  · intro h
    rw [clear_symbols, List.get?_map, hs]
    simp [clearSym, h]
  · intro h
    rw [clear_symbols, List.get?_map, hs]
    simp [clearSym, h]

/-- C10 witness: one symbol owned by file 1 is reset, one owned by file 2 is
left untouched. -/
theorem c10_witness :
    ([⟨some 1, 2, true, true, some 3, 4, true⟩,
      ⟨some 2, 2, true, true, some 3, 4, true⟩] : List Sym).get? 0 =
        some ⟨some 1, 2, true, true, some 3, 4, true⟩ ∧
    (clear_symbols 1 [⟨some 1, 2, true, true, some 3, 4, true⟩,
      ⟨some 2, 2, true, true, some 3, 4, true⟩]).get? 0 = some clearedSym ∧
    (clear_symbols 1 [⟨some 1, 2, true, true, some 3, 4, true⟩,
      ⟨some 2, 2, true, true, some 3, 4, true⟩]).get? 1 =
        some ⟨some 2, 2, true, true, some 3, 4, true⟩ := by
  refine ⟨rfl, ?_, ?_⟩
  · exact (c10_clear_symbols 1
      [⟨some 1, 2, true, true, some 3, 4, true⟩,
       ⟨some 2, 2, true, true, some 3, 4, true⟩] 0
      ⟨some 1, 2, true, true, some 3, 4, true⟩ rfl).1 rfl
  · exact (c10_clear_symbols 1
      [⟨some 1, 2, true, true, some 3, 4, true⟩,
       ⟨some 2, 2, true, true, some 3, 4, true⟩] 1
      ⟨some 2, 2, true, true, some 3, 4, true⟩ rfl).2 (by decide)

/-- After a promotion the next region is never promoted, whatever the
previous offset was. -/
theorem promotedAux_true (p : Nat) (rest : List SplitRegion) :
    promotedAux p true rest = promotedFlags rest := by
  cases rest with
  | nil => rfl
  | cons b rest2 => simp [promotedAux, promotedFlags]

/-- The fix-up loop marks exactly the positions given by the promotion
recurrence. -/
theorem fixupAlt_eq_zipWith : ∀ l : List SplitRegion,
    fixupAlt l =
      List.zipWith (fun r p => if p then markAlt r else r) l (promotedFlags l)
  | [] => by simp [fixupAlt, promotedFlags]
  | [a] => by simp [fixupAlt, promotedFlags, promotedAux]
  | a :: b :: rest => by
    by_cases h : a.offset == b.offset
    · rw [fixupAlt, if_pos h]
      have hrest := fixupAlt_eq_zipWith rest
      simp only [promotedFlags, promotedAux, h, Bool.true_and, Bool.not_false,
        Bool.and_true, List.zipWith_cons_cons, if_true, if_false,
        promotedAux_true]
      simp only [hrest]
      cases rest <;> rfl
    · rw [fixupAlt, if_neg h]
      have htl := fixupAlt_eq_zipWith (b :: rest)
      simp only [promotedFlags, promotedAux] at htl ⊢
      simp only [h, Bool.false_and, List.zipWith_cons_cons, if_false]
      simp [htl]

/-- C5 counterexample: on three regions sharing offset 5, the fix-up loop
promotes only the second; the third region's offset equals its immediate
predecessor's, yet it is left with `is_alt_entry = false`, refuting the
claim that third and later regions of a run are promoted. -/
theorem c5_counterexample :
    (fixupAlt [⟨5, 0, 0, false⟩, ⟨5, 0, 0, false⟩, ⟨5, 0, 0, false⟩]).get? 1 =
        some ⟨5, 0, 0, true⟩ ∧
    (fixupAlt [⟨5, 0, 0, false⟩, ⟨5, 0, 0, false⟩, ⟨5, 0, 0, false⟩]).get? 2 =
        some ⟨5, 0, 0, false⟩ := by
  decide

/-- C5 amended: after the fix-up scan, region `i` carries
`is_alt_entry = (original flag) ∨ promoted(i)`, where `promoted(0) = false`
and `promoted(i+1) = (offset(i) = offset(i+1)) ∧ ¬promoted(i)`: the second
of each colliding pair scanned is promoted and the comparison right after a
promotion is skipped, so the third region of a run of three equal offsets is
not promoted. -/
theorem c5_fixup_amended (l : List SplitRegion) :
    fixupAlt l =
      List.zipWith (fun r p => if p then markAlt r else r) l (promotedFlags l) :=
  fixupAlt_eq_zipWith l

/-- C6 counterexample: on the bytes of `c6bytes` with section `p2align = 0`
the splitter does not emit the three subsections `[0,3)`, `[3,6)`, `[6,7)`
asserted by the claim. -/
theorem c6_counterexample :
    ¬ split_cstring c6bytes 0 = some [(0, 3, 0), (3, 3, 0), (6, 1, 0)] := by
  decide

/-- C6 amended: the run of NULs after a string is absorbed into the
subsection of the string it terminates (`find_first_not_of` skips it before
the subsection is emitted), so the splitter emits exactly two subsections
`[0,4)` and `[4,7)`, each with `p2align 0`. -/
theorem c6_cstring_amended :
    split_cstring c6bytes 0 = some [(0, 4, 0), (4, 3, 0)] := by
  decide

/-- Trying a concatenated candidate list tries the left part first. -/
theorem tryList_append (opens : FsPath → Bool) (xs ys : List FsPath) :
    tryList opens (xs ++ ys) =
      match tryList opens xs with
      | some f => some f
      | none => tryList opens ys := by
  induction xs with
  | nil => simp [tryList]
  | cons p ps ih => by_cases h : opens p <;> simp [tryList, h, ih]

/-- The per-root body opens the first candidate of its candidate list. -/
theorem felRoot_eq (opens : FsPath → Bool) (root path : FsPath) :
    felRoot opens root path = tryList opens (felRootCandidates root path) := by
  unfold felRoot felRootCandidates
  split_ifs <;> simp_all [tryList]

/-- The sysroot loop opens the first candidate over all roots in order. -/
theorem felLoop_eq (opens : FsPath → Bool) (path : FsPath) :
    ∀ roots : List FsPath,
      felLoop opens path roots =
        tryList opens
          (roots.foldr (fun r acc => felRootCandidates r path ++ acc) [])
  | [] => rfl
  | root :: rest => by
    rw [felLoop, List.foldr_cons, tryList_append, felRoot_eq,
      felLoop_eq opens path rest]

/-- C8 counterexample: with one sysroot `/r` and the absolute path
`/a.dylib`, when only `/r/a.dylib.tbd` exists the code opens it (the
`.dylib` branch falls through into the generic `+".tbd"`/`+".dylib"`
attempts), while the claim — which allows exactly `root+stem+".tbd"` and
`root+path` for a `.dylib` path — requires the search to return null. -/
theorem c8_counterexample :
    find_external_lib (fun s => s == "/r/a.dylib.tbd".toList) ["/r".toList]
        "/a.dylib".toList = some "/r/a.dylib.tbd".toList ∧
    find_external_lib_claimed (fun s => s == "/r/a.dylib.tbd".toList)
        ["/r".toList] "/a.dylib".toList = none := by
  decide

/-- C8 amended: a non-absolute path is opened directly without consulting
sysroots; for an absolute path the roots are tried in order, a `.tbd` path
attempting exactly `root+path`, a `.dylib` path attempting
`root+stem+".tbd"`, `root+path`, and then (falling through to the generic
case) `root+path+".tbd"` and `root+path+".dylib"`, and any other path
attempting `root+path+".tbd"` then `root+path+".dylib"`; the first
successfully opened candidate is returned, and null when no candidate opens
under any root. -/
theorem c8_search_amended (opens : FsPath → Bool) (roots : List FsPath)
    (path : FsPath) :
    find_external_lib opens roots path =
      tryList opens (felCandidates roots path) := by
  unfold find_external_lib felCandidates
  by_cases h : pathIsAbs path
  · simp only [h, Bool.not_true, Bool.false_eq_true, if_false]
    exact felLoop_eq opens path roots
  · simp only [h, Bool.not_false, if_true, tryList]

/-- C7 counterexample: an object file ingested from an archive
(`archive_name` nonempty) is nevertheless alive at construction when
`-all_load` is in effect, contradicting the claim that every archive member
starts dead. -/
theorem c7_counterexample :
    objIsAliveAtCreate "libA.a" true = true ∧ "libA.a" ≠ "" := by
  exact ⟨rfl, by decide⟩

/-- C7 amended: at construction, a non-archive object is alive; an archive
member is alive iff `-all_load` is in effect; a dylib marked needed is
alive. -/
theorem c7_alive_amended (a : String) (al needed dsd : Bool) :
    (a = "" → objIsAliveAtCreate a al = true) ∧
    (a ≠ "" → (objIsAliveAtCreate a al = true ↔ al = true)) ∧
    (needed = true → dylibIsAliveAtCreate needed dsd = true) := by
  refine ⟨?_, ?_, ?_⟩
  · intro h; subst h; simp [objIsAliveAtCreate]
  · intro h
    have hb : (a == "") = false := by
      cases hx : a == "" with
      | true => exact absurd (by simpa using hx) h
      | false => rfl
    simp [objIsAliveAtCreate, hb]
  · intro h; subst h; simp [dylibIsAliveAtCreate]

/-- C7 witness: a non-archive member is alive even without `-all_load`, and
an archive member without `-all_load` is dead. -/
theorem c7_witness :
    (("" : String) = "" ∧ objIsAliveAtCreate "" false = true) ∧
    (("libA.a" : String) ≠ "" ∧
      (objIsAliveAtCreate "libA.a" false = true ↔ false = true)) := by
  refine ⟨⟨rfl, (c7_alive_amended "" false true true).1 rfl⟩,
    ⟨by decide, (c7_alive_amended "libA.a" false true true).2.1 (by decide)⟩⟩

end MachO

